import Mathlib

/-!
Verification development for the nanokit-rs utility library.

The library has two independent components:

* fixed-arity string concatenation over freshly allocated byte buffers
  (`src/string_concat.rs`, `src/string_concat_unsafe.rs`, re-exported for
  the C ABI in `src/exports.rs`);
* the `BitsNeeded` trait computing the minimum number of bits required to
  store an integer (`src/nanokit/src/count_bits.rs`), whose macro body is
  `$bits - self.leading_zeros()` for every integer type.

Strings are embedded as their byte sequences (`List Nat`).  The Rust
buffer discipline — `String::with_capacity(total)` followed by
`set_len(total)` and a series of `copy_nonoverlapping` writes at
cumulative offsets — is embedded as explicit list surgery at byte
offsets.  Machine integers are embedded as `Nat` (unsigned values and bit
patterns) and `Int` (signed values), with the two's-complement pattern of
a signed value made explicit.
-/

namespace Nanokit

/-- Byte strings: a Rust `str` / `String` viewed as its sequence of bytes. -/
abbrev ByteStr := List Nat

/-- Model of `String::with_capacity(total)` followed by `vec.set_len(total)`:
a buffer of `total` bytes.  The contents are unobservable before being
overwritten; the fresh allocation is modelled as zero bytes. -/
def allocBuffer (total : Nat) : ByteStr := List.replicate total 0

/-- Model of `core::ptr::copy_nonoverlapping(src.as_ptr(),
dst.as_mut_ptr().add(pos), src.len())`: overwrite `src.length` bytes of
`dst` starting at offset `pos`. -/
def copyNonoverlapping (src dst : ByteStr) (pos : Nat) : ByteStr :=
  dst.take pos ++ src ++ dst.drop (pos + src.length)

/-- Embedding of `concat_2` (`src/string_concat.rs`). -/
def concat_2 (base text : ByteStr) : ByteStr :=
  let total_length := base.length + text.length
  let result := allocBuffer total_length
  let result := copyNonoverlapping base result 0
  let result := copyNonoverlapping text result base.length
  result

/-- Embedding of `concat_3` (`src/string_concat.rs`); `end` is a Lean
keyword, so the third argument is named `end_`. -/
def concat_3 (base middle end_ : ByteStr) : ByteStr :=
  let total_length := base.length + middle.length + end_.length
  let result := allocBuffer total_length
  let pos := 0
  let result := copyNonoverlapping base result pos
  let pos := pos + base.length
  let result := copyNonoverlapping middle result pos
  let pos := pos + middle.length
  let result := copyNonoverlapping end_ result pos
  result

/-- Embedding of `concat_4` (`src/string_concat.rs`). -/
def concat_4 (s1 s2 s3 s4 : ByteStr) : ByteStr :=
  let total_length := s1.length + s2.length + s3.length + s4.length
  let result := allocBuffer total_length
  let pos := 0
  let result := copyNonoverlapping s1 result pos
  let pos := pos + s1.length
  let result := copyNonoverlapping s2 result pos
  let pos := pos + s2.length
  let result := copyNonoverlapping s3 result pos
  let pos := pos + s3.length
  let result := copyNonoverlapping s4 result pos
  result

/-- Embedding of `concat_5` (`src/string_concat.rs`). -/
def concat_5 (s1 s2 s3 s4 s5 : ByteStr) : ByteStr :=
  let total_length := s1.length + s2.length + s3.length + s4.length + s5.length
  let result := allocBuffer total_length
  let pos := 0
  let result := copyNonoverlapping s1 result pos
  let pos := pos + s1.length
  let result := copyNonoverlapping s2 result pos
  let pos := pos + s2.length
  let result := copyNonoverlapping s3 result pos
  let pos := pos + s3.length
  let result := copyNonoverlapping s4 result pos
  let pos := pos + s4.length
  let result := copyNonoverlapping s5 result pos
  result

/-- Maximum allocation length, `isize::MAX` on the modelled 64-bit
platform. -/
def isizeMax : Nat := 2 ^ 63 - 1

/-- Embedding of `concat_2_no_overflow` (`src/string_concat_unsafe.rs`).
Reaching `unreachable_unchecked()` when the summed length exceeds
`isize::MAX` is undefined behaviour, embedded as `none`; otherwise the
body is identical to `concat_2`. -/
def concat_2_no_overflow (base text : ByteStr) : Option ByteStr :=
  let total_length := base.length + text.length
  if total_length > isizeMax then none
  else
    let result := allocBuffer total_length
    let result := copyNonoverlapping base result 0
    let result := copyNonoverlapping text result base.length
    some result

/-- Embedding of `concat_3_no_overflow` (`src/string_concat_unsafe.rs`). -/
def concat_3_no_overflow (base middle end_ : ByteStr) : Option ByteStr :=
  let total_length := base.length + middle.length + end_.length
  if total_length > isizeMax then none
  else
    let result := allocBuffer total_length
    let pos := 0
    let result := copyNonoverlapping base result pos
    let pos := pos + base.length
    let result := copyNonoverlapping middle result pos
    let pos := pos + middle.length
    let result := copyNonoverlapping end_ result pos
    some result

/-- Embedding of `concat_4_no_overflow` (`src/string_concat_unsafe.rs`). -/
def concat_4_no_overflow (s1 s2 s3 s4 : ByteStr) : Option ByteStr :=
  let total_length := s1.length + s2.length + s3.length + s4.length
  if total_length > isizeMax then none
  else
    let result := allocBuffer total_length
    let pos := 0
    let result := copyNonoverlapping s1 result pos
    let pos := pos + s1.length
    let result := copyNonoverlapping s2 result pos
    let pos := pos + s2.length
    let result := copyNonoverlapping s3 result pos
    let pos := pos + s3.length
    let result := copyNonoverlapping s4 result pos
    some result

/-- Embedding of `concat_5_no_overflow` (`src/string_concat_unsafe.rs`). -/
def concat_5_no_overflow (s1 s2 s3 s4 s5 : ByteStr) : Option ByteStr :=
  let total_length := s1.length + s2.length + s3.length + s4.length + s5.length
  if total_length > isizeMax then none
  else
    let result := allocBuffer total_length
    let pos := 0
    let result := copyNonoverlapping s1 result pos
    let pos := pos + s1.length
    let result := copyNonoverlapping s2 result pos
    let pos := pos + s2.length
    let result := copyNonoverlapping s3 result pos
    let pos := pos + s3.length
    let result := copyNonoverlapping s4 result pos
    let pos := pos + s4.length
    let result := copyNonoverlapping s5 result pos
    some result

/-- Embedding of the C-ABI export `concat_2_c` (`src/exports.rs`). -/
def concat_2_c (base text : ByteStr) : ByteStr := concat_2 base text

/-- Embedding of the C-ABI export `concat_3_c` (`src/exports.rs`). -/
def concat_3_c (base middle end_ : ByteStr) : ByteStr := concat_3 base middle end_

/-- Embedding of the C-ABI export `concat_4_c` (`src/exports.rs`). -/
def concat_4_c (s1 s2 s3 s4 : ByteStr) : ByteStr := concat_4 s1 s2 s3 s4

/-- Embedding of the C-ABI export `concat_5_c` (`src/exports.rs`). -/
def concat_5_c (s1 s2 s3 s4 s5 : ByteStr) : ByteStr := concat_5 s1 s2 s3 s4 s5

/-- Embedding of the C-ABI export `concat_2_no_overflow_c`
(`src/exports.rs`). -/
def concat_2_no_overflow_c (base text : ByteStr) : Option ByteStr :=
  concat_2_no_overflow base text

/-- Specification-side definition, following the spec's words: the naive
left-to-right sequential join of the inputs. -/
def sequential_join (inputs : List ByteStr) : ByteStr :=
  List.foldl (fun acc s => acc ++ s) [] inputs

/-! ### Helper lemmas for the buffer-write model -/

/-- Writing `src` right after an already-written region `done`, into a
buffer whose tail still holds `src.length + k` fresh bytes, appends `src`
to the written region and leaves `k` fresh bytes. -/
lemma copy_step (src done : ByteStr) (k : Nat) :
    copyNonoverlapping src (done ++ List.replicate (src.length + k) 0) done.length =
      (done ++ src) ++ List.replicate k 0 := by
  unfold copyNonoverlapping
  rw [List.take_left, List.drop_append, List.drop_replicate]
  simp [List.append_assoc]

lemma concat_2_eq (a b : ByteStr) : concat_2 a b = a ++ b := by
  have h0 : copyNonoverlapping a (allocBuffer (a.length + b.length)) 0 =
      a ++ List.replicate b.length 0 := by
    simpa [allocBuffer] using copy_step a [] b.length
  have h1 : copyNonoverlapping b (a ++ List.replicate b.length 0) a.length =
      a ++ b := by
    simpa using copy_step b a 0
  simp only [concat_2, h0, h1]

lemma concat_3_eq (a b c : ByteStr) : concat_3 a b c = a ++ b ++ c := by
  have h0 : copyNonoverlapping a (allocBuffer (a.length + b.length + c.length)) 0 =
      a ++ List.replicate (b.length + c.length) 0 := by
    have := copy_step a [] (b.length + c.length)
    simpa [allocBuffer, Nat.add_assoc] using this
  have h1 : copyNonoverlapping b (a ++ List.replicate (b.length + c.length) 0)
      (0 + a.length) = (a ++ b) ++ List.replicate c.length 0 := by
    simpa using copy_step b a c.length
  have h2 : copyNonoverlapping c ((a ++ b) ++ List.replicate c.length 0)
      (0 + a.length + b.length) = a ++ b ++ c := by
    have := copy_step c (a ++ b) 0
    simpa [List.length_append] using this
  simp only [concat_3, h0, h1, h2]

lemma concat_4_eq (a b c d : ByteStr) : concat_4 a b c d = a ++ b ++ c ++ d := by
  have h0 : copyNonoverlapping a
      (allocBuffer (a.length + b.length + c.length + d.length)) 0 =
      a ++ List.replicate (b.length + (c.length + d.length)) 0 := by
    have := copy_step a [] (b.length + (c.length + d.length))
    simpa [allocBuffer, Nat.add_assoc] using this
  have h1 : copyNonoverlapping b
      (a ++ List.replicate (b.length + (c.length + d.length)) 0)
      (0 + a.length) = (a ++ b) ++ List.replicate (c.length + d.length) 0 := by
    simpa using copy_step b a (c.length + d.length)
  have h2 : copyNonoverlapping c
      ((a ++ b) ++ List.replicate (c.length + d.length) 0)
      (0 + a.length + b.length) = (a ++ b ++ c) ++ List.replicate d.length 0 := by
    have := copy_step c (a ++ b) d.length
    simpa [List.length_append] using this
  have h3 : copyNonoverlapping d ((a ++ b ++ c) ++ List.replicate d.length 0)
      (0 + a.length + b.length + c.length) = a ++ b ++ c ++ d := by
    have := copy_step d (a ++ b ++ c) 0
    simpa [List.length_append, Nat.add_assoc] using this
  simp only [concat_4, h0, h1, h2, h3]

lemma concat_5_eq (a b c d e : ByteStr) :
    concat_5 a b c d e = a ++ b ++ c ++ d ++ e := by
  have h0 : copyNonoverlapping a
      (allocBuffer (a.length + b.length + c.length + d.length + e.length)) 0 =
      a ++ List.replicate (b.length + (c.length + (d.length + e.length))) 0 := by
    have := copy_step a [] (b.length + (c.length + (d.length + e.length)))
    simpa [allocBuffer, Nat.add_assoc] using this
  have h1 : copyNonoverlapping b
      (a ++ List.replicate (b.length + (c.length + (d.length + e.length))) 0)
      (0 + a.length) =
      (a ++ b) ++ List.replicate (c.length + (d.length + e.length)) 0 := by
    simpa using copy_step b a (c.length + (d.length + e.length))
  have h2 : copyNonoverlapping c
      ((a ++ b) ++ List.replicate (c.length + (d.length + e.length)) 0)
      (0 + a.length + b.length) =
      (a ++ b ++ c) ++ List.replicate (d.length + e.length) 0 := by
    have := copy_step c (a ++ b) (d.length + e.length)
    simpa [List.length_append] using this
  have h3 : copyNonoverlapping d
      ((a ++ b ++ c) ++ List.replicate (d.length + e.length) 0)
      (0 + a.length + b.length + c.length) =
      (a ++ b ++ c ++ d) ++ List.replicate e.length 0 := by
    have := copy_step d (a ++ b ++ c) e.length
    simpa [List.length_append, Nat.add_assoc] using this
  have h4 : copyNonoverlapping e
      ((a ++ b ++ c ++ d) ++ List.replicate e.length 0)
      (0 + a.length + b.length + c.length + d.length) = a ++ b ++ c ++ d ++ e := by
    have := copy_step e (a ++ b ++ c ++ d) 0
    simpa [List.length_append, Nat.add_assoc] using this
  simp only [concat_5, h0, h1, h2, h3, h4]

/-! ### Bit-width computation (`src/nanokit/src/count_bits.rs`) -/

/-- Count of leading zero bits in the `W`-bit pattern of `v`: the model of
Rust `leading_zeros()` on a `W`-bit value `v < 2 ^ W`, scanning from the
most significant bit down. -/
def leadingZeros : Nat → Nat → Nat
  | 0, _ => 0
  | w + 1, v => if v < 2 ^ w then leadingZeros w v + 1 else 0

/-- Embedding of `bits_needed_to_store` for a `W`-bit unsigned integer:
the `impl_bits_needed` macro body is `$bits - self.leading_zeros()`. -/
def bits_needed_to_store (W v : Nat) : Nat := W - leadingZeros W v

/-- Two's-complement `W`-bit pattern of a signed value `v`. -/
def toBitPattern (W : Nat) (v : Int) : Nat := (v % ((2 : Int) ^ W)).toNat

/-- Embedding of `bits_needed_to_store` for a `W`-bit signed integer:
`$bits - self.leading_zeros()`, where `leading_zeros` counts over the
two's-complement bit pattern of the value. -/
def bits_needed_to_store_signed (W : Nat) (v : Int) : Nat :=
  W - leadingZeros W (toBitPattern W v)

/-- Specification-side definition, following the spec's words: `0` for
value `0`, otherwise `floor(log2 value) + 1`. -/
def bitLen (v : Nat) : Nat := if v = 0 then 0 else Nat.log2 v + 1

/-! ### Helper lemmas for the bit-width model -/

lemma leadingZeros_le (W v : Nat) : leadingZeros W v ≤ W := by
  induction W with
  | zero => simp [leadingZeros]
  | succ w ih =>
    by_cases h : v < 2 ^ w
    · simp only [leadingZeros, if_pos h]
      omega
    · simp [leadingZeros, h]


lemma leadingZeros_zero (W : Nat) : leadingZeros W 0 = W := by
  induction W with
  | zero => rfl
  | succ w ih => simp [leadingZeros, Nat.pos_pow_of_pos, ih]

lemma bitLen_le_of_lt {W v : Nat} (h : v < 2 ^ W) : bitLen v ≤ W := by
  unfold bitLen
  split
  · omega
  · rename_i hv
    have := (Nat.log2_lt hv).mpr h
    omega

lemma leadingZeros_eq_sub {W v : Nat} (h : v < 2 ^ W) :
    leadingZeros W v = W - bitLen v := by
  induction W with
  | zero =>
    have hv : v = 0 := by
      have : v < 1 := by simpa using h
      omega
    subst hv
    simp [leadingZeros, bitLen]
  | succ w ih =>
    by_cases hv : v < 2 ^ w
    · have h1 := ih hv
      have h2 := bitLen_le_of_lt hv
      simp only [leadingZeros, if_pos hv, h1]
      omega
    · have hpos : 0 < 2 ^ w := Nat.pos_pow_of_pos w (by omega)
      have hv0 : v ≠ 0 := by omega
      have hlog : w ≤ Nat.log2 v := (Nat.le_log2 hv0).mpr (Nat.le_of_not_lt hv)
      have hlog2 : Nat.log2 v < w + 1 := (Nat.log2_lt hv0).mpr h
      simp only [leadingZeros, if_neg hv, bitLen, if_neg hv0]
      omega

lemma bits_needed_eq_bitLen {W v : Nat} (h : v < 2 ^ W) :
    bits_needed_to_store W v = bitLen v := by
  have h1 := leadingZeros_eq_sub h
  have h2 := bitLen_le_of_lt h
  unfold bits_needed_to_store
  omega

lemma bitLen_two_pow_sub_one (k : Nat) : bitLen (2 ^ k - 1) = k := by
  cases k with
  | zero => simp [bitLen]
  | succ j =>
    have hj : 0 < 2 ^ j := Nat.pos_pow_of_pos j (by omega)
    have hpow : 2 ^ (j + 1) = 2 ^ j * 2 := by rw [Nat.pow_succ]
    have hne : 2 ^ (j + 1) - 1 ≠ 0 := by omega
    have hlo : j ≤ Nat.log2 (2 ^ (j + 1) - 1) :=
      (Nat.le_log2 hne).mpr (by omega)
    have hhi : Nat.log2 (2 ^ (j + 1) - 1) < j + 1 :=
      (Nat.log2_lt hne).mpr (by omega)
    simp only [bitLen, if_neg hne]
    omega

/-- The two's-complement pattern of a negative value is the value shifted
up by the modulus. -/
lemma toBitPattern_neg {w : Nat} {v : Int} (hv : v < 0)
    (hge : -((2 : Int) ^ w) ≤ v) :
    toBitPattern (w + 1) v = (v + (2 : Int) ^ (w + 1)).toNat := by
  unfold toBitPattern
  have hp : (0 : Int) < 2 ^ w := by positivity
  have hpow : (2 : Int) ^ (w + 1) = 2 ^ w * 2 := by rw [pow_succ]
  have h0 : (0 : Int) ≤ v + 2 ^ (w + 1) := by omega
  have h1 : v + 2 ^ (w + 1) < 2 ^ (w + 1) := by omega
  rw [← Int.add_emod_self (a := v) (b := (2 : Int) ^ (w + 1)), Int.emod_eq_of_lt h0 h1]

/-- A negative value in the lower half range has a two's-complement
pattern of at least `2 ^ w`, so its leading-zero count in `w + 1` bits is
zero. -/
lemma leadingZeros_toBitPattern_neg {w : Nat} {v : Int} (hv : v < 0)
    (hge : -((2 : Int) ^ w) ≤ v) :
    leadingZeros (w + 1) (toBitPattern (w + 1) v) = 0 := by
  rw [toBitPattern_neg hv hge]
  have hp : (0 : Int) < 2 ^ w := by positivity
  have hpow : (2 : Int) ^ (w + 1) = 2 ^ w * 2 := by rw [pow_succ]
  have hcast : ((2 ^ w : Nat) : Int) = (2 : Int) ^ w := by push_cast; ring
  have hge2 : 2 ^ w ≤ (v + (2 : Int) ^ (w + 1)).toNat := by omega
  simp [leadingZeros, Nat.not_lt.mpr hge2]

lemma signed_neg_full {w : Nat} {v : Int} (hv : v < 0)
    (hge : -((2 : Int) ^ w) ≤ v) :
    bits_needed_to_store_signed (w + 1) v = w + 1 := by
  unfold bits_needed_to_store_signed
  rw [leadingZeros_toBitPattern_neg hv hge]
  omega

lemma toBitPattern_nonneg {W : Nat} {v : Int} (h0 : 0 ≤ v)
    (hlt : v < (2 : Int) ^ W) :
    toBitPattern W v = v.toNat := by
  unfold toBitPattern
  rw [Int.emod_eq_of_lt h0 hlt]

lemma signed_nonneg_eq {W : Nat} {v : Int} (h0 : 0 ≤ v)
    (hlt : v < (2 : Int) ^ W) :
    bits_needed_to_store_signed W v = bits_needed_to_store W v.toNat := by
  unfold bits_needed_to_store_signed bits_needed_to_store
  rw [toBitPattern_nonneg h0 hlt]

/-! ### Claim theorems -/

/-- C1: for every arity n in {2,3,4,5} and all tuples of n string inputs,
`concat_n` returns exactly the byte-for-byte left-to-right concatenation
of the inputs in argument order, equal to the naive sequential join. -/
theorem concat_eq_sequential_join (a b c d e : ByteStr) :
    concat_2 a b = sequential_join [a, b] ∧
    concat_3 a b c = sequential_join [a, b, c] ∧
    concat_4 a b c d = sequential_join [a, b, c, d] ∧
    concat_5 a b c d e = sequential_join [a, b, c, d, e] := by
  refine ⟨?_, ?_, ?_, ?_⟩ <;>
    simp [concat_2_eq, concat_3_eq, concat_4_eq, concat_5_eq, sequential_join]

/-- C6: for every arity n in {2,3,4,5}, the byte length of the string
returned by `concat_n` equals the sum of the byte lengths of the
inputs. -/
theorem concat_length_sum (a b c d e : ByteStr) :
    (concat_2 a b).length = a.length + b.length ∧
    (concat_3 a b c).length = a.length + b.length + c.length ∧
    (concat_4 a b c d).length = a.length + b.length + c.length + d.length ∧
    (concat_5 a b c d e).length =
      a.length + b.length + c.length + d.length + e.length := by
  refine ⟨?_, ?_, ?_, ?_⟩ <;>
    simp [concat_2_eq, concat_3_eq, concat_4_eq, concat_5_eq, Nat.add_assoc]

/-- C10: the higher-arity concatenations decompose into nested binary
concatenation. -/
theorem concat_nested_decomposition (a b c d e : ByteStr) :
    concat_3 a b c = concat_2 (concat_2 a b) c ∧
    concat_4 a b c d = concat_2 (concat_3 a b c) d ∧
    concat_5 a b c d e = concat_2 (concat_4 a b c d) e := by
  refine ⟨?_, ?_, ?_⟩ <;>
    simp [concat_2_eq, concat_3_eq, concat_4_eq, concat_5_eq]

/-- C2: for every arity n in {2,3,4,5}, whenever the summed byte length is
at most `isize::MAX`, the unchecked variant `concat_n_no_overflow`
returns exactly the string returned by the safe variant `concat_n`. -/
theorem no_overflow_refines_safe (a b c d e : ByteStr) :
    (a.length + b.length ≤ isizeMax →
      concat_2_no_overflow a b = some (concat_2 a b)) ∧
    (a.length + b.length + c.length ≤ isizeMax →
      concat_3_no_overflow a b c = some (concat_3 a b c)) ∧
    (a.length + b.length + c.length + d.length ≤ isizeMax →
      concat_4_no_overflow a b c d = some (concat_4 a b c d)) ∧
    (a.length + b.length + c.length + d.length + e.length ≤ isizeMax →
      concat_5_no_overflow a b c d e = some (concat_5 a b c d e)) := by
  refine ⟨fun h => ?_, fun h => ?_, fun h => ?_, fun h => ?_⟩ <;>
    simp [concat_2_no_overflow, concat_3_no_overflow, concat_4_no_overflow,
      concat_5_no_overflow, concat_2, concat_3, concat_4, concat_5,
      Nat.not_lt.mpr h]

/-- Witness for C2 at concrete one-byte inputs. -/
theorem no_overflow_refines_safe_witness :
    ([65] : ByteStr).length + ([66] : ByteStr).length ≤ isizeMax ∧
    concat_2_no_overflow [65] [66] = some (concat_2 [65] [66]) := by
  refine ⟨by decide, ?_⟩
  exact (no_overflow_refines_safe [65] [66] [] [] []).1 (by decide)

/-- C9: every C-ABI export returns exactly the value of the corresponding
internal operation on the same inputs, adding no behavior of its own. -/
theorem exports_add_no_behavior (a b c d e : ByteStr) :
    concat_2_c a b = concat_2 a b ∧
    concat_3_c a b c = concat_3 a b c ∧
    concat_4_c a b c d = concat_4 a b c d ∧
    concat_5_c a b c d e = concat_5 a b c d e ∧
    concat_2_no_overflow_c a b = concat_2_no_overflow a b :=
  ⟨rfl, rfl, rfl, rfl, rfl⟩

/-- C8: the concatenation operations (safe and unchecked, every arity) and
the bit-width computations are deterministic pure functions: two
invocations with identical inputs yield identical outputs, with no
dependence on hidden state. -/
theorem deterministic_outputs (a b c d e a' b' c' d' e' : ByteStr)
    (W v W' v' : Nat) (vs vs' : Int)
    (h1 : a = a') (h2 : b = b') (h3 : c = c') (h4 : d = d') (h5 : e = e')
    (hW : W = W') (hv : v = v') (hs : vs = vs') :
    concat_2 a b = concat_2 a' b' ∧
    concat_3 a b c = concat_3 a' b' c' ∧
    concat_4 a b c d = concat_4 a' b' c' d' ∧
    concat_5 a b c d e = concat_5 a' b' c' d' e' ∧
    concat_2_no_overflow a b = concat_2_no_overflow a' b' ∧
    concat_3_no_overflow a b c = concat_3_no_overflow a' b' c' ∧
    concat_4_no_overflow a b c d = concat_4_no_overflow a' b' c' d' ∧
    concat_5_no_overflow a b c d e = concat_5_no_overflow a' b' c' d' e' ∧
    bits_needed_to_store W v = bits_needed_to_store W' v' ∧
    bits_needed_to_store_signed W vs = bits_needed_to_store_signed W' vs' := by
  subst h1 h2 h3 h4 h5 hW hv hs
  exact ⟨rfl, rfl, rfl, rfl, rfl, rfl, rfl, rfl, rfl, rfl⟩

/-- Witness for C8 at concrete inputs. -/
theorem deterministic_outputs_witness :
    concat_2 [1] [2] = concat_2 [1] [2] ∧
    concat_3 [1] [2] [3] = concat_3 [1] [2] [3] ∧
    concat_4 [1] [2] [3] [4] = concat_4 [1] [2] [3] [4] ∧
    concat_5 [1] [2] [3] [4] [5] = concat_5 [1] [2] [3] [4] [5] ∧
    concat_2_no_overflow [1] [2] = concat_2_no_overflow [1] [2] ∧
    concat_3_no_overflow [1] [2] [3] = concat_3_no_overflow [1] [2] [3] ∧
    concat_4_no_overflow [1] [2] [3] [4] = concat_4_no_overflow [1] [2] [3] [4] ∧
    concat_5_no_overflow [1] [2] [3] [4] [5] =
      concat_5_no_overflow [1] [2] [3] [4] [5] ∧
    bits_needed_to_store 8 5 = bits_needed_to_store 8 5 ∧
    bits_needed_to_store_signed 8 (-1) = bits_needed_to_store_signed 8 (-1) :=
  deterministic_outputs [1] [2] [3] [4] [5] [1] [2] [3] [4] [5]
    8 5 8 5 (-1) (-1) rfl rfl rfl rfl rfl rfl rfl rfl

/-- C3: for every `W`-bit unsigned value `v`, `bits_needed_to_store`
equals `W` minus the leading-zero count of the bit pattern, which is `0`
when `v = 0` and `floor(log2 v) + 1` when `v > 0`. -/
theorem bits_needed_unsigned_spec (W v : Nat) (h : v < 2 ^ W) :
    bits_needed_to_store W v = W - leadingZeros W v ∧
    bits_needed_to_store W v = if v = 0 then 0 else Nat.log2 v + 1 := by
  refine ⟨rfl, ?_⟩
  rw [bits_needed_eq_bitLen h]
  rfl

/-- Witness for C3 at `W = 8`, `v = 5`. -/
theorem bits_needed_unsigned_spec_witness :
    (5 : Nat) < 2 ^ 8 ∧
    (bits_needed_to_store 8 5 = 8 - leadingZeros 8 5 ∧
     bits_needed_to_store 8 5 = if (5 : Nat) = 0 then 0 else Nat.log2 5 + 1) :=
  ⟨by decide, bits_needed_unsigned_spec 8 5 (by decide)⟩

/-- C4: every negative `W`-bit signed value has a leading-zero count of
zero and needs the full `W` bits, and every non-negative signed value has
the same bit count as the unsigned value with the same bit pattern. -/
theorem bits_needed_signed_spec (W : Nat) (v : Int) (hW : 0 < W) :
    (v < 0 → -((2 : Int) ^ (W - 1)) ≤ v →
      leadingZeros W (toBitPattern W v) = 0 ∧
      bits_needed_to_store_signed W v = W) ∧
    (0 ≤ v → v < (2 : Int) ^ W →
      bits_needed_to_store_signed W v = bits_needed_to_store W v.toNat) := by
  obtain ⟨w, rfl⟩ : ∃ w, W = w + 1 := ⟨W - 1, by omega⟩
  constructor
  · intro hv hge
    have hge' : -((2 : Int) ^ w) ≤ v := by simpa using hge
    exact ⟨leadingZeros_toBitPattern_neg hv hge', signed_neg_full hv hge'⟩
  · intro h0 hlt
    exact signed_nonneg_eq h0 hlt

/-- Witness for C4 at `W = 8`, `v = -3`. -/
theorem bits_needed_signed_spec_witness :
    (0 : Nat) < 8 ∧
    (((-3 : Int) < 0 → -((2 : Int) ^ (8 - 1)) ≤ -3 →
      leadingZeros 8 (toBitPattern 8 (-3)) = 0 ∧
      bits_needed_to_store_signed 8 (-3) = 8) ∧
     ((0 : Int) ≤ -3 → (-3 : Int) < 2 ^ 8 →
      bits_needed_to_store_signed 8 (-3) =
        bits_needed_to_store 8 ((-3 : Int)).toNat)) :=
  ⟨by decide, bits_needed_signed_spec 8 (-3) (by decide)⟩

/-- C5: `bits_needed_to_store` always lies in `[0, W]`, is `0` at `0`, is
`W` at `-1`, at the minimum signed value and at the maximum unsigned
value, and is `W - 1` at the maximum signed value. -/
theorem bits_needed_bounds_and_extremes (W v : Nat) (vi : Int) (hW : 0 < W) :
    bits_needed_to_store W v ≤ W ∧
    bits_needed_to_store_signed W vi ≤ W ∧
    bits_needed_to_store W 0 = 0 ∧
    bits_needed_to_store_signed W (-1) = W ∧
    bits_needed_to_store_signed W (-((2 : Int) ^ (W - 1))) = W ∧
    bits_needed_to_store W (2 ^ W - 1) = W ∧
    bits_needed_to_store_signed W ((2 : Int) ^ (W - 1) - 1) = W - 1 := by
  obtain ⟨w, rfl⟩ : ∃ w, W = w + 1 := ⟨W - 1, by omega⟩
  have hp : (0 : Nat) < 2 ^ w := Nat.pos_pow_of_pos w (by omega)
  have hpi : (0 : Int) < 2 ^ w := by positivity
  have hpow : (2 : Int) ^ (w + 1) = 2 ^ w * 2 := by rw [pow_succ]
  have hpown : (2 : Nat) ^ (w + 1) = 2 ^ w * 2 := by rw [pow_succ]
  refine ⟨Nat.sub_le _ _, Nat.sub_le _ _, ?_, ?_, ?_, ?_, ?_⟩
  · unfold bits_needed_to_store
    rw [leadingZeros_zero]
    omega
  · exact signed_neg_full (by omega) (by omega)
  · have h := signed_neg_full (v := -((2 : Int) ^ ((w + 1) - 1))) (w := w)
      (by simp [hpi]) (by simp)
    simpa using h
  · have hlt : 2 ^ (w + 1) - 1 < 2 ^ (w + 1) := by omega
    rw [bits_needed_eq_bitLen hlt, bitLen_two_pow_sub_one]
  · have hc : ((2 ^ w : Nat) : Int) = (2 : Int) ^ w := by push_cast; ring
    have h0 : (0 : Int) ≤ 2 ^ ((w + 1) - 1) - 1 := by simp; omega
    have hlt : (2 : Int) ^ ((w + 1) - 1) - 1 < 2 ^ (w + 1) := by simp; omega
    rw [signed_nonneg_eq h0 hlt]
    have htn : ((2 : Int) ^ ((w + 1) - 1) - 1).toNat = 2 ^ w - 1 := by
      simp only [Nat.add_sub_cancel]
      omega
    rw [htn]
    have hlt2 : 2 ^ w - 1 < 2 ^ (w + 1) := by omega
    rw [bits_needed_eq_bitLen hlt2, bitLen_two_pow_sub_one]
    omega

/-- Witness for C5 at `W = 8`, `v = 200`, `vi = 77`. -/
theorem bits_needed_bounds_and_extremes_witness :
    (0 : Nat) < 8 ∧
    (bits_needed_to_store 8 200 ≤ 8 ∧
     bits_needed_to_store_signed 8 77 ≤ 8 ∧
     bits_needed_to_store 8 0 = 0 ∧
     bits_needed_to_store_signed 8 (-1) = 8 ∧
     bits_needed_to_store_signed 8 (-((2 : Int) ^ (8 - 1))) = 8 ∧
     bits_needed_to_store 8 (2 ^ 8 - 1) = 8 ∧
     bits_needed_to_store_signed 8 ((2 : Int) ^ (8 - 1) - 1) = 8 - 1) :=
  ⟨by decide, bits_needed_bounds_and_extremes 8 200 77 (by decide)⟩

/-- C7: `bits_needed_to_store` is monotonic non-decreasing over
non-negative values of the same width, for both the unsigned and the
signed computation. -/
theorem bits_needed_monotone (W x y : Nat) (hxy : x < y) (hy : y < 2 ^ W) :
    bits_needed_to_store W x ≤ bits_needed_to_store W y ∧
    bits_needed_to_store_signed W (x : Int) ≤
      bits_needed_to_store_signed W (y : Int) := by
  have hx : x < 2 ^ W := by omega
  have hu : bits_needed_to_store W x ≤ bits_needed_to_store W y := by
    rw [bits_needed_eq_bitLen hx, bits_needed_eq_bitLen hy]
    unfold bitLen
    by_cases hx0 : x = 0
    · simp [hx0]
    · have hy0 : y ≠ 0 := by omega
      have h1 : 2 ^ Nat.log2 x ≤ y :=
        le_trans (Nat.log2_self_le hx0) (by omega)
      have h2 : Nat.log2 x ≤ Nat.log2 y := (Nat.le_log2 hy0).mpr h1
      simp only [if_neg hx0, if_neg hy0]
      omega
  have hc : ((2 ^ W : Nat) : Int) = (2 : Int) ^ W := by push_cast; ring
  have hcx : ((x : Int)) < (2 : Int) ^ W := by
    rw [← hc]; exact_mod_cast hx
  have hcy : ((y : Int)) < (2 : Int) ^ W := by
    rw [← hc]; exact_mod_cast hy
  refine ⟨hu, ?_⟩
  rw [signed_nonneg_eq (Int.natCast_nonneg x) hcx,
    signed_nonneg_eq (Int.natCast_nonneg y) hcy]
  simpa using hu

/-- Witness for C7 at `W = 8`, `x = 5`, `y = 17`. -/
theorem bits_needed_monotone_witness :
    (5 : Nat) < 17 ∧ (17 : Nat) < 2 ^ 8 ∧
    (bits_needed_to_store 8 5 ≤ bits_needed_to_store 8 17 ∧
     bits_needed_to_store_signed 8 ((5 : Nat) : Int) ≤
       bits_needed_to_store_signed 8 ((17 : Nat) : Int)) :=
  ⟨by decide, by decide, bits_needed_monotone 8 5 17 (by decide) (by decide)⟩

end Nanokit
